import Mathlib

/-!
Verification of the rando-photo image server (`src/main.rs`).

The program is a small HTTP service with two selector routes:
- `GET /random` calls `random_image(images_path.join(final_glob))`, which
  expands the glob `<base>/**/*.jpg` case-insensitively and picks a uniformly
  random match;
- `GET /newest` calls `newest_image(images_path.join(fast_glob))`, which
  expands the same way and picks the match whose filesystem creation
  timestamp is maximal (`Iterator::max_by_key`).
On a hit, a handler answers with a temporary redirect (HTTP 307) to
`/images/<path of the hit relative to images_path>` (via `pathdiff::diff_paths`
and `unwrap`); on a miss it answers 404 with body `"No image found"`.

Modelling choices:
- A filesystem path is its list of `/`-separated segments (`Path`).
- The filesystem is a finite list of entry paths in the enumeration order of
  the glob walk, plus a partial creation-time map (`FS`); `created p = none`
  models a file whose creation timestamp cannot be read
  (`metadata().unwrap().created().unwrap()` panics there).
- A glob pattern is a list of segment patterns (`Seg`): literal segments,
  `*<suffix>` segments and `**`. The glob crate resolves wildcard-free
  components by joining them literally onto the walked path and checking the
  result, so literal segments are matched verbatim; the
  `MatchOptions { case_sensitive: false }` applies only to wildcard
  components, modelled by folding every character with `Char.toLower` before
  comparison in the `*<suffix>` matcher. The walk starts at the literal base
  directory, so the base prefix of every returned path is the base verbatim.
- Randomness (`SliceRandom::choose`) is an oracle: the selector receives an
  arbitrary natural number and reduces it modulo the number of matches, so
  every oracle value denotes a valid in-range index of a nonempty match list.
- A Rust panic (`unwrap` on a missing creation time, or on a `diff_paths`
  miss) is the `Except.error` case, tagged by which `unwrap` fired.
-/

namespace RandoPhoto

/-- A filesystem path, represented as its list of `/`-separated segments. -/
abbrev Path := List String

/-- One component of a glob pattern: a literal directory or file name, a
`*<suffix>` wildcard component (e.g. `*.jpg`), or the recursive `**`. -/
inductive Seg where
  | lit (s : String)
  | star (suf : String)
  | globstar
deriving DecidableEq

/-- Case-folded view of a segment name, modelling the glob crate's
`case_sensitive: false` matching of wildcard components: every character is
lowered. -/
def lowerStr (s : String) : List Char := s.data.map Char.toLower

/-- Per-component glob matching of a pattern against the segments of a path.
A literal component is matched verbatim (the glob crate resolves wildcard-free
components by literal join, so `MatchOptions` case folding never applies to
them); `*<suf>` matches one segment whose case-folded name ends with the
case-folded suffix; `**` matches zero or more segments (every suffix of the
remaining path is tried). -/
def matchSegs : List Seg → List String → Bool
  | [], ns => ns.isEmpty
  | .lit s :: ps, ns =>
    match ns with
    | [] => false
    | n :: ns1 => (s == n) && matchSegs ps ns1
  | .star suf :: ps, ns =>
    match ns with
    | [] => false
    | n :: ns1 => List.isSuffixOf (lowerStr suf) (lowerStr n) && matchSegs ps ns1
  | .globstar :: ps, ns => (List.range (ns.length + 1)).any fun i => matchSegs ps (ns.drop i)

/-- The filesystem as seen by one request: the entry paths in the enumeration
order of the glob walk, and the creation-time metadata of each path
(`none` models a file whose creation time cannot be read). -/
structure FS where
  files : List Path
  created : Path → Option Nat

/-- Whether a filesystem path is returned by the glob expansion of
`base.join("**/*.jpg")` where `base = root.join(pat)`: the walk of the glob
crate starts at the literal root, so `root` is a verbatim prefix, and the
remaining segments match `pat ++ [**, *.jpg]` — literal components verbatim,
wildcard components case-insensitively. -/
def selMatch (root : Path) (pat : List Seg) (p : Path) : Bool :=
  root.isPrefixOf p && matchSegs (pat ++ [Seg.globstar, Seg.star ".jpg"]) (p.drop root.length)

/-- The matched set, in enumeration order: the glob expansion that both
`random_image` and `newest_image` compute with identical code
(`glob_with(&path.join("**/*.jpg"), MatchOptions { case_sensitive: false, .. })`). -/
def globExpand (root : Path) (pat : List Seg) (fs : FS) : List Path :=
  fs.files.filter (selMatch root pat)

/-- Which `unwrap` panicked: the creation-time read in `newest_image`, or the
`diff_paths` result in a handler. -/
inductive Abort where
  | createdUnreadable
  | diffPathsNone
deriving DecidableEq

/-- Rust `random_image(path)`: collect the matches, then
`images.choose(&mut rand::rng())` — `None` on an empty slice, otherwise the
element at a random in-range index. The random source is the oracle `rng`,
reduced modulo the length. -/
def random_image (root : Path) (pat : List Seg) (fs : FS) (rng : Nat) : Option Path :=
  let images := globExpand root pat fs
  images[rng % images.length]?

/-- Read the creation timestamp of every matched path in order, keyed for
`max_by_key`; `none` as soon as some `metadata().unwrap().created().unwrap()`
would panic. -/
def readKeys (created : Path → Option Nat) : List Path → Option (List (Nat × Path))
  | [] => some []
  | p :: ps =>
    match created p, readKeys created ps with
    | some t, some ks => some ((t, p) :: ks)
    | _, _ => none

/-- One fold step of Rust `Iterator::max_by_key`: keep the accumulator only
when its key is strictly greater, so ties go to the later element. -/
def maxStep (a b : Nat × Path) : Nat × Path := if a.1 > b.1 then a else b

/-- Rust `newest_image(path)`: collect the matches, then
`images.iter().max_by_key(|x| x.metadata().unwrap().created().unwrap())`.
On an empty match list no metadata is read and the result is `none`; if some
matched file's creation time cannot be read the request panics; otherwise the
fold keeps the element with the maximal key, later elements winning ties. -/
def newest_image (root : Path) (pat : List Seg) (fs : FS) : Except Abort (Option Path) :=
  match readKeys fs.created (globExpand root pat fs) with
  | none => .error .createdUnreadable
  | some [] => .ok none
  | some (k :: ks) => .ok (some (ks.foldl maxStep k).2)

/-- `pathdiff::diff_paths(path, base)`, restricted to the prefix case the
handlers exercise: when `base` is a verbatim prefix of `path` the result is
the remainder of `path`. The non-prefix cases are conservatively `none`,
the branch on which the handlers' `unwrap` would panic. -/
def diff_paths (path base : Path) : Option Path :=
  if base.isPrefixOf path then some (path.drop base.length) else none

/-- The parsed configuration (`struct Args`): images root, the glob used by
`/newest`, the glob used by `/random`, and the bind address. -/
structure Args where
  images_path : Path
  fast_glob : List Seg
  final_glob : List Seg
  http_address : String

/-- An HTTP response as the handlers build them: a redirect with a status and
a target, or a plain-text response with a status and a body. -/
inductive Response where
  | redirect (status : Nat) (target : String)
  | plain (status : Nat) (body : String)
deriving DecidableEq

/-- Render a path back to its `/`-separated string (`to_string_lossy`). -/
def joinPath (p : Path) : String := String.intercalate "/" p

/-- Rust `random_image_handler`: run `random_image` on
`images_path.join(final_glob)`; on a hit, 307-redirect
(`Redirect::temporary`) to `/images/<diff_paths(image, images_path)>`
(panicking if `diff_paths` returns `None`); on a miss, 404 with body
`"No image found"`. -/
def random_image_handler (args : Args) (fs : FS) (rng : Nat) : Except Abort Response :=
  match random_image args.images_path args.final_glob fs rng with
  | some image =>
    match diff_paths image args.images_path with
    | some rel => .ok (.redirect 307 ("/images/" ++ joinPath rel))
    | none => .error .diffPathsNone
  | none => .ok (.plain 404 "No image found")

/-- Rust `newest_image_handler`: run `newest_image` on
`images_path.join(fast_glob)`; a panic inside `newest_image` propagates;
otherwise the same response contract as `random_image_handler`. -/
def newest_image_handler (args : Args) (fs : FS) : Except Abort Response :=
  match newest_image args.images_path args.fast_glob fs with
  | .error e => .error e
  | .ok (some image) =>
    match diff_paths image args.images_path with
    | some rel => .ok (.redirect 307 ("/images/" ++ joinPath rel))
    | none => .error .diffPathsNone
  | .ok none => .ok (.plain 404 "No image found")

/-- Response assembly shared by both handlers (each handler writes it out
inline in the Rust source): propagate a selector panic, 307-redirect on a hit,
404 on a miss. Used only to state which selector each route invokes. -/
def handlerOf (root : Path) (sel : Except Abort (Option Path)) : Except Abort Response :=
  match sel with
  | .error e => .error e
  | .ok (some image) =>
    match diff_paths image root with
    | some rel => .ok (.redirect 307 ("/images/" ++ joinPath rel))
    | none => .error .diffPathsNone
  | .ok none => .ok (.plain 404 "No image found")

/-- Concrete filesystem with two matches of distinct creation times. -/
def fsC1 : FS :=
  ⟨[["r", "d", "a.jpg"], ["r", "d", "b.jpg"]],
    fun p => if p = ["r", "d", "b.jpg"] then some 7 else some 3⟩

/-- Concrete filesystem with a single match. -/
def fsC2 : FS := ⟨[["r", "d", "a.jpg"]], fun _ => some 0⟩

/-- Concrete empty filesystem. -/
def fsC3 : FS := ⟨[], fun _ => none⟩

/-- Concrete configuration over root `r` with pattern `d` on both routes. -/
def argsC3 : Args := ⟨["r"], [Seg.lit "d"], [Seg.lit "d"], "0.0.0.0:3000"⟩

/-- Concrete filesystem holding `/data/images/2024/a.jpg`. -/
def fsC4 : FS := ⟨[["data", "images", "2024", "a.jpg"]], fun _ => some 0⟩

/-- Concrete configuration with images root `/data/images`. -/
def argsC4 : Args := ⟨["data", "images"], [Seg.lit "2024"], [Seg.lit "2024"], "0.0.0.0:3000"⟩

/-- Concrete filesystem with two matches sharing one creation time. -/
def fsC5 : FS := ⟨[["r", "d", "a.jpg"], ["r", "d", "b.jpg"]], fun _ => some 5⟩

/-- Concrete filesystem whose single file name differs in case from the
`*.jpg` wildcard. -/
def fsC6 : FS := ⟨[["r", "d", "A.JPG"]], fun _ => some 0⟩

/-- Concrete filesystem holding a match and an upper-cased-name variant. -/
def fsC6w : FS := ⟨[["r", "d", "a.jpg"], ["r", "d", "A.JPG"]], fun _ => some 0⟩

/-- Concrete filesystem whose single match has no readable creation time. -/
def fsC8 : FS := ⟨[["r", "d", "x.jpg"]], fun _ => none⟩

/-- Concrete configuration over root `r` with pattern `d` on both routes. -/
def argsC8 : Args := ⟨["r"], [Seg.lit "d"], [Seg.lit "d"], "0.0.0.0:3000"⟩

/-- Concrete filesystem with a direct file `a.jpg` and a file inside a
directory named `sub.jpg`. -/
def fsC9 : FS := ⟨[["r", "a.jpg"], ["r", "sub.jpg", "b.jpg"]], fun _ => some 0⟩

/-- Concrete filesystem with a single match under root `r`. -/
def fsC10 : FS := ⟨[["r", "d", "a.jpg"]], fun _ => some 0⟩

/-- A list is a `isPrefixOf`-prefix of itself followed by anything. -/
theorem isPrefixOf_append_self : ∀ (l t : List String), l.isPrefixOf (l ++ t) = true
  | [], t => by cases t <;> rfl
  | a :: l, t => by simp [List.isPrefixOf, isPrefixOf_append_self l t]

/-- A boolean prefix splits the larger list as the prefix plus the drop. -/
theorem isPrefixOf_eq_append :
    ∀ (l p : List String), l.isPrefixOf p = true → p = l ++ p.drop l.length
  | [], p => by simp
  | a :: l, [] => by simp [List.isPrefixOf]
  | a :: l, b :: p => by
    intro h
    simp only [List.isPrefixOf, Bool.and_eq_true, beq_iff_eq] at h
    obtain ⟨rfl, h2⟩ := h
    simpa using isPrefixOf_eq_append l p h2

/-- `readKeys` fails exactly when some listed path has no creation time. -/
theorem readKeys_eq_none {c : Path → Option Nat} :
    ∀ (l : List Path), (readKeys c l = none ↔ ∃ p ∈ l, c p = none)
  | [] => by simp [readKeys]
  | p :: ps => by
    have ih := readKeys_eq_none (c := c) ps
    cases hc : c p with
    | none =>
      constructor
      · intro _
        exact ⟨p, List.mem_cons_self p ps, hc⟩
      · intro _
        simp [readKeys, hc]
    | some t =>
      cases hr : readKeys c ps with
      | none =>
        constructor
        · intro _
          obtain ⟨q, hq, hcq⟩ := ih.mp hr
          exact ⟨q, List.mem_cons_of_mem p hq, hcq⟩
        · intro _
          simp [readKeys, hc, hr]
      | some ks =>
        constructor
        · intro h
          exfalso
          simp [readKeys, hc, hr] at h
        · rintro ⟨q, hq, hcq⟩
          exfalso
          rcases List.mem_cons.mp hq with rfl | hq2
          · rw [hc] at hcq; cases hcq
          · have hn : readKeys c ps = none := ih.mpr ⟨q, hq2, hcq⟩
            rw [hr] at hn; cases hn

/-- A successful `readKeys` keys exactly the listed paths, in order, with
their creation times. -/
theorem readKeys_eq_some {c : Path → Option Nat} :
    ∀ (l : List Path) (ks : List (Nat × Path)), readKeys c l = some ks →
      ks.map Prod.snd = l ∧ ∀ kp ∈ ks, c kp.2 = some kp.1
  | [], ks => by
    intro h
    simp only [readKeys, Option.some.injEq] at h
    subst h
    simp
  | p :: ps, ks => by
    intro h
    cases hc : c p with
    | none => simp [readKeys, hc] at h
    | some t =>
      cases hr : readKeys c ps with
      | none => simp [readKeys, hc, hr] at h
      | some ks1 =>
        simp only [readKeys, hc, hr, Option.some.injEq] at h
        subst h
        obtain ⟨hmap, hall⟩ := readKeys_eq_some ps ks1 hr
        refine ⟨by simp [hmap], ?_⟩
        intro kp hkp
        rcases List.mem_cons.mp hkp with rfl | h2
        · exact hc
        · exact hall kp h2

/-- The `max_by_key` step keeps one of its two arguments. -/
theorem maxStep_cases (a b : Nat × Path) : maxStep a b = a ∨ maxStep a b = b := by
  unfold maxStep; split
  · exact Or.inl rfl
  · exact Or.inr rfl

/-- The `max_by_key` step's key dominates its left argument. -/
theorem le_maxStep_left (a b : Nat × Path) : a.1 ≤ (maxStep a b).1 := by
  unfold maxStep; split <;> omega

/-- The `max_by_key` step's key dominates its right argument. -/
theorem le_maxStep_right (a b : Nat × Path) : b.1 ≤ (maxStep a b).1 := by
  unfold maxStep; split <;> omega

/-- The `max_by_key` fold returns one of the scanned elements, and its key
dominates every scanned element's key. -/
theorem foldl_maxStep_mem : ∀ (ks : List (Nat × Path)) (k : Nat × Path),
    ks.foldl maxStep k ∈ k :: ks ∧ ∀ y ∈ k :: ks, y.1 ≤ (ks.foldl maxStep k).1
  | [], k => by simp
  | y :: ys, k => by
    obtain ⟨hmem, hmax⟩ := foldl_maxStep_mem ys (maxStep k y)
    simp only [List.foldl_cons]
    have hM : (maxStep k y).1 ≤ (List.foldl maxStep (maxStep k y) ys).1 :=
      hmax _ (List.mem_cons_self _ _)
    refine ⟨?_, ?_⟩
    · rcases List.mem_cons.mp hmem with h | h
      · rcases maxStep_cases k y with hk | hk <;> rw [h, hk] <;> simp
      · simp only [List.mem_cons]
        exact Or.inr (Or.inr h)
    · intro z hz
      rcases List.mem_cons.mp hz with rfl | hz1
      · exact le_trans (le_maxStep_left z y) hM
      rcases List.mem_cons.mp hz1 with rfl | hz2
      · exact le_trans (le_maxStep_right k z) hM
      · exact hmax z (List.mem_cons_of_mem _ hz2)

/-- The `max_by_key` fold returns the last maximal element: every element
strictly after the returned one has a strictly smaller key. -/
theorem foldl_maxStep_last : ∀ (ks : List (Nat × Path)) (k : Nat × Path),
    ∃ l1 l2, k :: ks = l1 ++ (ks.foldl maxStep k) :: l2 ∧
      ∀ y ∈ l2, y.1 < (ks.foldl maxStep k).1
  | [], k => ⟨[], [], by simp⟩
  | y :: ys, k => by
    obtain ⟨l1, l2, heq, hlt⟩ := foldl_maxStep_last ys (maxStep k y)
    simp only [List.foldl_cons]
    by_cases hk : k.1 > y.1
    · have hky : maxStep k y = k := by simp [maxStep, hk]
      rw [hky] at heq hlt ⊢
      cases l1 with
      | nil =>
        simp only [List.nil_append, List.cons.injEq] at heq
        obtain ⟨h1, h2⟩ := heq
        refine ⟨[], y :: ys, ?_, ?_⟩
        · rw [List.nil_append, ← h1]
        · intro z hz
          rcases List.mem_cons.mp hz with rfl | hz2
          · rw [← h1]; exact hk
          · exact hlt z (h2 ▸ hz2)
      | cons a t =>
        simp only [List.cons_append, List.cons.injEq] at heq
        obtain ⟨ha, h2⟩ := heq
        refine ⟨k :: y :: t, l2, ?_, hlt⟩
        conv_lhs => rw [h2]
        simp
    · have hky : maxStep k y = y := by simp [maxStep, hk]
      rw [hky] at heq hlt ⊢
      exact ⟨k :: l1, l2, by simp [heq], hlt⟩

/-- Shape of a successful nonempty `newest_image` run. -/
theorem newest_image_ok_some {root : Path} {pat : List Seg} {fs : FS} {r : Path}
    (h : newest_image root pat fs = .ok (some r)) :
    ∃ k ks, readKeys fs.created (globExpand root pat fs) = some (k :: ks) ∧
      r = (ks.foldl maxStep k).2 := by
  unfold newest_image at h
  cases hr : readKeys fs.created (globExpand root pat fs) with
  | none => rw [hr] at h; cases h
  | some ks0 =>
    cases ks0 with
    | nil => rw [hr] at h; simp at h
    | cons k ks =>
      rw [hr] at h
      simp only [Except.ok.injEq, Option.some.injEq] at h
      exact ⟨k, ks, rfl, h.symm⟩

/-- A `newest_image` hit is a member of the matched set. -/
theorem newest_image_some_mem {root : Path} {pat : List Seg} {fs : FS} {r : Path}
    (h : newest_image root pat fs = .ok (some r)) : r ∈ globExpand root pat fs := by
  obtain ⟨k, ks, hread, hr⟩ := newest_image_ok_some h
  obtain ⟨hmap, _⟩ := readKeys_eq_some _ _ hread
  rw [hr, ← hmap]
  exact List.mem_map_of_mem Prod.snd (foldl_maxStep_mem ks k).1

/-- The only panic `newest_image` itself raises is the creation-time read. -/
theorem newest_image_error_kind {root : Path} {pat : List Seg} {fs : FS} {e : Abort}
    (h : newest_image root pat fs = .error e) : e = Abort.createdUnreadable := by
  unfold newest_image at h
  cases hr : readKeys fs.created (globExpand root pat fs) with
  | none =>
    rw [hr] at h
    simp only [Except.error.injEq] at h
    exact h.symm
  | some ks0 =>
    cases ks0 with
    | nil => rw [hr] at h; cases h
    | cons k ks => rw [hr] at h; cases h

/-- Glob matches satisfy the selector predicate. -/
theorem selMatch_of_mem {root : Path} {pat : List Seg} {fs : FS} {p : Path}
    (h : p ∈ globExpand root pat fs) : selMatch root pat p = true :=
  (List.mem_filter.mp h).2

/-- Every glob match lies under the walk root. -/
theorem globExpand_under_root {root : Path} {pat : List Seg} {fs : FS} {p : Path}
    (h : p ∈ globExpand root pat fs) : p = root ++ p.drop root.length := by
  have hsel := selMatch_of_mem h
  unfold selMatch at hsel
  simp only [Bool.and_eq_true] at hsel
  exact isPrefixOf_eq_append root p hsel.1

/-- On a glob match, `diff_paths` against the root strips the root. -/
theorem diff_paths_of_mem {root : Path} {pat : List Seg} {fs : FS} {p : Path}
    (h : p ∈ globExpand root pat fs) : diff_paths p root = some (p.drop root.length) := by
  have hsel := selMatch_of_mem h
  unfold selMatch at hsel
  simp only [Bool.and_eq_true] at hsel
  unfold diff_paths
  simp [hsel.1]

/-- A `random_image` hit is a member of the matched set. -/
theorem random_image_some_mem {root : Path} {pat : List Seg} {fs : FS} {rng : Nat} {img : Path}
    (h : random_image root pat fs rng = some img) : img ∈ globExpand root pat fs := by
  unfold random_image at h
  obtain ⟨hlt, hget⟩ := List.getElem?_eq_some.mp h
  rw [← hget]
  exact List.getElem_mem hlt

/-- A pattern ending in a `*<suf>` wildcard never matches the empty path. -/
theorem matchSegs_star_nil (suf : String) :
    ∀ (P : List Seg), matchSegs (P ++ [Seg.star suf]) [] = false
  | [] => rfl
  | .lit s :: P => rfl
  | .star s :: P => rfl
  | .globstar :: P => by
    have ih := matchSegs_star_nil suf P
    simp [matchSegs, ih]

/-- Case transfer on the final path segment: a pattern ending in a `*<suf>`
wildcard component matches that component case-insensitively, so changing the
letter case of the final segment never changes a successful verdict. -/
theorem matchSegs_star_last_congr (suf : String) :
    ∀ (P : List Seg) (ms : List String) (name name1 : String),
      lowerStr name = lowerStr name1 →
      matchSegs (P ++ [Seg.star suf]) (ms ++ [name]) = true →
      matchSegs (P ++ [Seg.star suf]) (ms ++ [name1]) = true
  | [], ms, name, name1 => by
    intro hl h
    cases ms with
    | nil =>
      simp only [List.nil_append, matchSegs, Bool.and_eq_true] at h ⊢
      refine ⟨?_, h.2⟩
      rw [← hl]
      exact h.1
    | cons m ms1 =>
      exfalso
      simp [matchSegs] at h
  | .lit s :: P, ms, name, name1 => by
    intro hl h
    cases ms with
    | nil =>
      exfalso
      simp only [List.nil_append, List.cons_append, List.append_eq, matchSegs,
        Bool.and_eq_true] at h
      rw [matchSegs_star_nil suf P] at h
      exact Bool.false_ne_true h.2
    | cons m ms1 =>
      simp only [List.cons_append, matchSegs, Bool.and_eq_true] at h ⊢
      exact ⟨h.1, matchSegs_star_last_congr suf P ms1 name name1 hl h.2⟩
  | .star st :: P, ms, name, name1 => by
    intro hl h
    cases ms with
    | nil =>
      exfalso
      simp only [List.nil_append, List.cons_append, List.append_eq, matchSegs,
        Bool.and_eq_true] at h
      rw [matchSegs_star_nil suf P] at h
      exact Bool.false_ne_true h.2
    | cons m ms1 =>
      simp only [List.cons_append, matchSegs, Bool.and_eq_true] at h ⊢
      exact ⟨h.1, matchSegs_star_last_congr suf P ms1 name name1 hl h.2⟩
  | .globstar :: P, ms, name, name1 => by
    intro hl h
    simp only [List.cons_append, List.append_eq, matchSegs, List.any_eq_true,
      List.mem_range] at h ⊢
    obtain ⟨i, hi, hmi⟩ := h
    by_cases hle : i ≤ ms.length
    · refine ⟨i, ?_, ?_⟩
      · simpa using Nat.lt_succ_of_le (Nat.le_succ_of_le hle)
      · rw [List.drop_append_of_le_length hle] at hmi
        rw [List.drop_append_of_le_length hle]
        exact matchSegs_star_last_congr suf P (ms.drop i) name name1 hl hmi
    · exfalso
      have hdrop : (ms ++ [name]).drop i = [] := by
        apply List.drop_eq_nil_of_le
        simp only [List.length_append, List.length_cons, List.length_nil]
        omega
      rw [hdrop, matchSegs_star_nil suf P] at hmi
      exact Bool.false_ne_true hmi

/-- A globstar-free pattern prefix consumes exactly its own number of
segments. -/
theorem matchSegs_append_split :
    ∀ (p1 p2 : List Seg) (ns : List String), (∀ s ∈ p1, s ≠ Seg.globstar) →
      matchSegs (p1 ++ p2) ns = true →
      ∃ a b, ns = a ++ b ∧ a.length = p1.length ∧ matchSegs p2 b = true
  | [], p2, ns => fun _ h => ⟨[], ns, rfl, rfl, h⟩
  | .lit s :: ps, p2, ns => by
    intro hno h
    cases ns with
    | nil => simp [matchSegs] at h
    | cons n ns1 =>
      simp only [List.cons_append, matchSegs, Bool.and_eq_true] at h
      obtain ⟨a, b, hab, hlen, hm⟩ := matchSegs_append_split ps p2 ns1
        (fun q hq => hno q (List.mem_cons_of_mem _ hq)) h.2
      exact ⟨n :: a, b, by simp [hab], by simp [hlen], hm⟩
  | .star suf :: ps, p2, ns => by
    intro hno h
    cases ns with
    | nil => simp [matchSegs] at h
    | cons n ns1 =>
      simp only [List.cons_append, matchSegs, Bool.and_eq_true] at h
      obtain ⟨a, b, hab, hlen, hm⟩ := matchSegs_append_split ps p2 ns1
        (fun q hq => hno q (List.mem_cons_of_mem _ hq)) h.2
      exact ⟨n :: a, b, by simp [hab], by simp [hlen], hm⟩
  | .globstar :: ps, p2, ns => by
    intro hno _
    exact absurd rfl (hno Seg.globstar (List.mem_cons_self _ _))

/-- The appended `**/*.jpg` tail consumes at least one segment. -/
theorem matchSegs_tail_ne_nil (suf : String) (b : List String)
    (h : matchSegs [Seg.globstar, Seg.star suf] b = true) : b ≠ [] := by
  intro hb
  subst hb
  simp [matchSegs, List.range_succ] at h

/-- C1: whenever `newest_image` returns a hit on the matched set, that hit is
a member of the matched set and its filesystem creation timestamp is maximal:
every element of the matched set has a creation timestamp ≤ the returned
element's. -/
theorem newest_image_returns_max (root : Path) (pat : List Seg) (fs : FS) (r : Path)
    (h : newest_image root pat fs = .ok (some r)) :
    r ∈ globExpand root pat fs ∧
      ∀ q ∈ globExpand root pat fs, ∃ tq tr, fs.created q = some tq ∧
        fs.created r = some tr ∧ tq ≤ tr := by
  obtain ⟨k, ks, hread, hr⟩ := newest_image_ok_some h
  obtain ⟨hmap, hall⟩ := readKeys_eq_some _ _ hread
  obtain ⟨hmem, hmax⟩ := foldl_maxStep_mem ks k
  constructor
  · rw [hr, ← hmap]
    exact List.mem_map_of_mem Prod.snd hmem
  · intro q hq
    rw [← hmap] at hq
    obtain ⟨kp, hkp, hkp2⟩ := List.mem_map.mp hq
    refine ⟨kp.1, (ks.foldl maxStep k).1, ?_, ?_, ?_⟩
    · rw [← hkp2]; exact hall kp hkp
    · rw [hr]; exact hall _ hmem
    · exact hmax kp hkp

/-- Witness for C1: on a concrete two-file matched set the returned `b.jpg`
(created 7) dominates `a.jpg` (created 3). -/
theorem newest_image_returns_max_witness :
    ∃ tq tr, fsC1.created ["r", "d", "a.jpg"] = some tq ∧
      fsC1.created ["r", "d", "b.jpg"] = some tr ∧ tq ≤ tr :=
  (newest_image_returns_max ["r"] [Seg.lit "d"] fsC1 ["r", "d", "b.jpg"] rfl).2
    ["r", "d", "a.jpg"] (by decide)

/-- C2: on a non-empty matched set, `random_image` returns `some` element of
the matched set, whatever the random draw. -/
theorem random_image_returns_member (root : Path) (pat : List Seg) (fs : FS) (rng : Nat)
    (h : globExpand root pat fs ≠ []) :
    ∃ r, random_image root pat fs rng = some r ∧ r ∈ globExpand root pat fs := by
  have hlen : 0 < (globExpand root pat fs).length := List.length_pos.mpr h
  have hidx : rng % (globExpand root pat fs).length < (globExpand root pat fs).length :=
    Nat.mod_lt _ hlen
  refine ⟨(globExpand root pat fs)[rng % (globExpand root pat fs).length], ?_, ?_⟩
  · unfold random_image
    exact List.getElem?_eq_some.mpr ⟨hidx, rfl⟩
  · exact List.getElem_mem hidx

/-- Witness for C2 at a concrete one-file matched set and draw 3. -/
theorem random_image_returns_member_witness :
    ∃ r, random_image ["r"] [Seg.lit "d"] fsC2 3 = some r ∧
      r ∈ globExpand ["r"] [Seg.lit "d"] fsC2 :=
  random_image_returns_member ["r"] [Seg.lit "d"] fsC2 3 (by decide)

/-- C3: when the matched set is empty, `random_image` returns `None`,
`newest_image` returns `Ok(None)`, and the corresponding handlers respond
404 with body `"No image found"`. -/
theorem empty_match_404 (args : Args) (fs : FS) (rng : Nat) :
    (globExpand args.images_path args.final_glob fs = [] →
      random_image args.images_path args.final_glob fs rng = none ∧
        random_image_handler args fs rng = .ok (.plain 404 "No image found")) ∧
    (globExpand args.images_path args.fast_glob fs = [] →
      newest_image args.images_path args.fast_glob fs = .ok none ∧
        newest_image_handler args fs = .ok (.plain 404 "No image found")) := by
  constructor
  · intro h
    have hrand : random_image args.images_path args.final_glob fs rng = none := by
      simp [random_image, h]
    refine ⟨hrand, ?_⟩
    simp [random_image_handler, hrand]
  · intro h
    have hnew : newest_image args.images_path args.fast_glob fs = .ok none := by
      simp [newest_image, h, readKeys]
    refine ⟨hnew, ?_⟩
    simp [newest_image_handler, hnew]

/-- Witness for C3 on the empty filesystem. -/
theorem empty_match_404_witness :
    (random_image argsC3.images_path argsC3.final_glob fsC3 0 = none ∧
      random_image_handler argsC3 fsC3 0 = .ok (.plain 404 "No image found")) ∧
    (newest_image argsC3.images_path argsC3.fast_glob fsC3 = .ok none ∧
      newest_image_handler argsC3 fsC3 = .ok (.plain 404 "No image found")) :=
  ⟨(empty_match_404 argsC3 fsC3 0).1 rfl, (empty_match_404 argsC3 fsC3 0).2 rfl⟩

/-- C4: every selector hit makes its handler answer a temporary redirect
(HTTP 307) whose target is `/images/` followed by the hit's path relative to
the images root. -/
theorem handlers_redirect_relative (args : Args) (fs : FS) (rng : Nat) (img : Path) :
    (random_image args.images_path args.final_glob fs rng = some img →
      random_image_handler args fs rng =
        .ok (.redirect 307 ("/images/" ++ joinPath (img.drop args.images_path.length)))) ∧
    (newest_image args.images_path args.fast_glob fs = .ok (some img) →
      newest_image_handler args fs =
        .ok (.redirect 307 ("/images/" ++ joinPath (img.drop args.images_path.length)))) := by
  constructor
  · intro h
    have hd := diff_paths_of_mem (random_image_some_mem h)
    unfold random_image_handler
    rw [h]
    simp [hd]
  · intro h
    have hd := diff_paths_of_mem (newest_image_some_mem h)
    unfold newest_image_handler
    rw [h]
    simp [hd]

/-- Witness for C4: root `/data/images`, match `/data/images/2024/a.jpg`,
redirect target `/images/2024/a.jpg`. -/
theorem handlers_redirect_relative_witness :
    random_image_handler argsC4 fsC4 0 = .ok (.redirect 307 "/images/2024/a.jpg") :=
  (handlers_redirect_relative argsC4 fsC4 0 ["data", "images", "2024", "a.jpg"]).1 rfl

/-- C5 counterexample: two matches share the identical maximal creation time;
`newest_image` returns the second encountered (`b.jpg`), not the first
(`a.jpg`), because Rust `Iterator::max_by_key` keeps the later element on
ties. -/
theorem newest_tie_not_first :
    globExpand ["r"] [Seg.lit "d"] fsC5 = [["r", "d", "a.jpg"], ["r", "d", "b.jpg"]] ∧
      fsC5.created ["r", "d", "a.jpg"] = some 5 ∧
      fsC5.created ["r", "d", "b.jpg"] = some 5 ∧
      newest_image ["r"] [Seg.lit "d"] fsC5 = .ok (some ["r", "d", "b.jpg"]) ∧
      (["r", "d", "b.jpg"] : Path) ≠ ["r", "d", "a.jpg"] :=
  ⟨rfl, rfl, rfl, rfl, by decide⟩

/-- C5 (amended): on ties of the maximal creation timestamp, `newest_image`
returns the last maximal element in enumeration order — every element after
the returned one has a strictly smaller creation timestamp — and the
tie-break is deterministic. -/
theorem newest_tie_returns_last (root : Path) (pat : List Seg) (fs : FS) (r : Path)
    (h : newest_image root pat fs = .ok (some r)) :
    ∃ tr, fs.created r = some tr ∧
      ∃ l1 l2, globExpand root pat fs = l1 ++ r :: l2 ∧
        ∀ q ∈ l2, ∃ tq, fs.created q = some tq ∧ tq < tr := by
  obtain ⟨k, ks, hread, hr⟩ := newest_image_ok_some h
  obtain ⟨hmap, hall⟩ := readKeys_eq_some _ _ hread
  obtain ⟨m1, m2, hsplit, hlt⟩ := foldl_maxStep_last ks k
  refine ⟨(ks.foldl maxStep k).1, ?_, m1.map Prod.snd, m2.map Prod.snd, ?_, ?_⟩
  · rw [hr]
    exact hall _ (foldl_maxStep_mem ks k).1
  · rw [← hmap, hsplit, hr]
    simp
  · intro q hq
    obtain ⟨kp, hkp, hkp2⟩ := List.mem_map.mp hq
    have hkpmem : kp ∈ k :: ks := by
      rw [hsplit]
      exact List.mem_append_right _ (List.mem_cons_of_mem _ hkp)
    refine ⟨kp.1, ?_, ?_⟩
    · rw [← hkp2]; exact hall kp hkpmem
    · exact hlt kp hkp

/-- Witness for C5 (amended) at the concrete tie: `b.jpg` is returned and no
element follows it. -/
theorem newest_tie_returns_last_witness :
    ∃ tr, fsC5.created ["r", "d", "b.jpg"] = some tr ∧
      ∃ l1 l2, globExpand ["r"] [Seg.lit "d"] fsC5 = l1 ++ ["r", "d", "b.jpg"] :: l2 ∧
        ∀ q ∈ l2, ∃ tq, fsC5.created q = some tq ∧ tq < tr :=
  newest_tie_returns_last ["r"] [Seg.lit "d"] fsC5 ["r", "d", "b.jpg"] rfl

/-- C6: file matching is case-insensitive on the file name: the selector glob
always ends in the `*.jpg` wildcard component, which the glob crate matches
with `case_sensitive: false`, so changing the letter case of a matched file's
name (e.g. `A.JPG` against `*.jpg`) never changes membership in the matched
set; concretely the file `r/d/A.JPG` is matched under configured pattern `d`
(expansion `r/d/**/*.jpg`) and both selectors return it. -/
theorem match_case_insensitive :
    (∀ (root : Path) (pat : List Seg) (fs : FS) (dir : List String) (name name1 : String),
      lowerStr name = lowerStr name1 →
      (root ++ dir ++ [name1]) ∈ fs.files →
      (root ++ dir ++ [name]) ∈ globExpand root pat fs →
      (root ++ dir ++ [name1]) ∈ globExpand root pat fs) ∧
    (globExpand ["r"] [Seg.lit "d"] fsC6 = [["r", "d", "A.JPG"]] ∧
      random_image ["r"] [Seg.lit "d"] fsC6 0 = some ["r", "d", "A.JPG"] ∧
      newest_image ["r"] [Seg.lit "d"] fsC6 = .ok (some ["r", "d", "A.JPG"])) := by
  constructor
  · intro root pat fs dir name name1 hl hmem hglob
    have hsel := selMatch_of_mem hglob
    unfold selMatch at hsel
    simp only [Bool.and_eq_true] at hsel
    have hm := hsel.2
    have hdrop0 : (root ++ dir ++ [name]).drop root.length = dir ++ [name] := by
      rw [List.append_assoc]
      exact List.drop_left root (dir ++ [name])
    rw [hdrop0] at hm
    have hpateq : (pat ++ [Seg.globstar]) ++ [Seg.star ".jpg"] =
        pat ++ [Seg.globstar, Seg.star ".jpg"] := by simp
    rw [← hpateq] at hm
    have hm1 := matchSegs_star_last_congr ".jpg" (pat ++ [Seg.globstar]) dir name name1 hl hm
    refine List.mem_filter.mpr ⟨hmem, ?_⟩
    unfold selMatch
    have hpre : root.isPrefixOf (root ++ dir ++ [name1]) = true := by
      rw [List.append_assoc]
      exact isPrefixOf_append_self root (dir ++ [name1])
    have hdrop1 : (root ++ dir ++ [name1]).drop root.length = dir ++ [name1] := by
      rw [List.append_assoc]
      exact List.drop_left root (dir ++ [name1])
    rw [hpre, hdrop1, ← hpateq]
    simp only [Bool.true_and]
    exact hm1
  · exact ⟨rfl, rfl, rfl⟩

/-- Witness for C6: the upper-cased-name variant `r/d/A.JPG` of the matched
`r/d/a.jpg` is itself matched. -/
theorem match_case_insensitive_witness :
    (["r"] ++ ["d"] ++ ["A.JPG"]) ∈ globExpand ["r"] [Seg.lit "d"] fsC6w :=
  match_case_insensitive.1 ["r"] [Seg.lit "d"] fsC6w ["d"] "a.jpg" "A.JPG"
    (by decide) (by decide) (by decide)

/-- C7: `/random` invokes `random_image` with the final glob and `/newest`
invokes `newest_image` with the fast glob; each handler's response is
independent of the other route's pattern. -/
theorem routes_use_own_pattern (root : Path) (fg fin fg1 fin1 : List Seg)
    (ha ha1 : String) (fs : FS) (rng : Nat) :
    random_image_handler ⟨root, fg, fin, ha⟩ fs rng =
        random_image_handler ⟨root, fg1, fin, ha1⟩ fs rng ∧
      newest_image_handler ⟨root, fg, fin, ha⟩ fs =
        newest_image_handler ⟨root, fg, fin1, ha1⟩ fs ∧
      random_image_handler ⟨root, fg, fin, ha⟩ fs rng =
        handlerOf root (.ok (random_image root fin fs rng)) ∧
      newest_image_handler ⟨root, fg, fin, ha⟩ fs =
        handlerOf root (newest_image root fg fs) := by
  refine ⟨rfl, rfl, ?_, ?_⟩
  · cases h : random_image root fin fs rng with
    | none => simp [random_image_handler, handlerOf, h]
    | some img => simp [random_image_handler, handlerOf, h]
  · cases h : newest_image root fg fs with
    | error e => simp [newest_image_handler, handlerOf, h]
    | ok o =>
      cases o with
      | none => simp [newest_image_handler, handlerOf, h]
      | some img => simp [newest_image_handler, handlerOf, h]

/-- C8: `newest_image` panics exactly when some matched file's creation time
cannot be read, and the panic propagates out of the `/newest` handler
(no recovery, no fallback value). -/
theorem newest_aborts_iff_unreadable (root : Path) (pat : List Seg) (fs : FS) (args : Args) :
    (newest_image root pat fs = .error .createdUnreadable ↔
      ∃ p ∈ globExpand root pat fs, fs.created p = none) ∧
    (newest_image args.images_path args.fast_glob fs = .error .createdUnreadable →
      newest_image_handler args fs = .error .createdUnreadable) := by
  constructor
  · constructor
    · intro h
      cases hr : readKeys fs.created (globExpand root pat fs) with
      | none => exact (readKeys_eq_none _).mp hr
      | some ks =>
        unfold newest_image at h
        rw [hr] at h
        cases ks with
        | nil => simp at h
        | cons k ks1 => simp at h
    · intro hex
      have hn : readKeys fs.created (globExpand root pat fs) = none :=
        (readKeys_eq_none _).mpr hex
      unfold newest_image
      rw [hn]
  · intro h
    unfold newest_image_handler
    rw [h]

/-- Witness for C8: with an unreadable creation time the request aborts and
the handler propagates the panic. -/
theorem newest_aborts_iff_unreadable_witness :
    newest_image ["r"] [Seg.lit "d"] fsC8 = .error .createdUnreadable ∧
      newest_image_handler argsC8 fsC8 = .error .createdUnreadable := by
  have h1 : newest_image ["r"] [Seg.lit "d"] fsC8 = .error .createdUnreadable :=
    (newest_aborts_iff_unreadable ["r"] [Seg.lit "d"] fsC8 argsC8).1.mpr
      ⟨["r", "d", "x.jpg"], by decide, rfl⟩
  exact ⟨h1, (newest_aborts_iff_unreadable ["r"] [Seg.lit "d"] fsC8 argsC8).2 h1⟩

/-- C9: the configured pattern is consumed as directory segments and the
appended `**/*.jpg` tail adds at least one more segment, so a globstar-free
configured pattern (e.g. `*.jpg`) never selects files at its own depth —
concretely, `r/a.jpg` is not matched under configured pattern `*.jpg` while
`r/sub.jpg/b.jpg` is. -/
theorem pattern_names_directories :
    (∀ (root : Path) (pat : List Seg) (fs : FS) (p : Path),
      (∀ s ∈ pat, s ≠ Seg.globstar) → p ∈ globExpand root pat fs →
        root.length + pat.length + 1 ≤ p.length) ∧
    ((["r", "a.jpg"] : Path) ∉ globExpand ["r"] [Seg.star ".jpg"] fsC9 ∧
      (["r", "sub.jpg", "b.jpg"] : Path) ∈ globExpand ["r"] [Seg.star ".jpg"] fsC9 ∧
      (["r", "a.jpg"] : Path) ∈ fsC9.files) := by
  constructor
  · intro root pat fs p hno hp
    have hsel := selMatch_of_mem hp
    unfold selMatch at hsel
    simp only [Bool.and_eq_true] at hsel
    have hform := isPrefixOf_eq_append root p hsel.1
    obtain ⟨a, b, hab, hlen, hm2⟩ :=
      matchSegs_append_split pat [Seg.globstar, Seg.star ".jpg"] (p.drop root.length)
        hno hsel.2
    have hb : b ≠ [] := matchSegs_tail_ne_nil ".jpg" b hm2
    have hblen : 1 ≤ b.length := List.length_pos.mpr hb
    have hplen : p.length = root.length + (p.drop root.length).length := by
      conv_lhs => rw [hform]
      simp
    rw [hab] at hplen
    simp only [List.length_append] at hplen
    omega
  · refine ⟨by decide, by decide, by decide⟩

/-- Witness for C9 at the concrete subtree match. -/
theorem pattern_names_directories_witness :
    (["r"] : Path).length + ([Seg.star ".jpg"] : List Seg).length + 1 ≤
      (["r", "sub.jpg", "b.jpg"] : Path).length :=
  pattern_names_directories.1 ["r"] [Seg.star ".jpg"] fsC9 ["r", "sub.jpg", "b.jpg"]
    (by decide) (by decide)

/-- C10: every selector hit lies under the images root, `diff_paths` against
the root therefore succeeds on it, and neither handler can reach its
`diff_paths`-panic branch. -/
theorem hits_under_root :
    (∀ (root : Path) (pat : List Seg) (fs : FS) (p : Path),
      p ∈ globExpand root pat fs → p = root ++ p.drop root.length) ∧
    (∀ (root : Path) (pat : List Seg) (fs : FS) (p : Path),
      p ∈ globExpand root pat fs → diff_paths p root = some (p.drop root.length)) ∧
    (∀ (args : Args) (fs : FS) (rng : Nat),
      random_image_handler args fs rng ≠ .error .diffPathsNone) ∧
    (∀ (args : Args) (fs : FS), newest_image_handler args fs ≠ .error .diffPathsNone) := by
  refine ⟨fun root pat fs p h => globExpand_under_root h,
    fun root pat fs p h => diff_paths_of_mem h, ?_, ?_⟩
  · intro args fs rng h
    cases hx : random_image args.images_path args.final_glob fs rng with
    | none =>
      unfold random_image_handler at h
      rw [hx] at h
      simp at h
    | some img =>
      unfold random_image_handler at h
      rw [hx] at h
      simp [diff_paths_of_mem (random_image_some_mem hx)] at h
  · intro args fs h
    cases hx : newest_image args.images_path args.fast_glob fs with
    | error e =>
      have he := newest_image_error_kind hx
      subst he
      unfold newest_image_handler at h
      rw [hx] at h
      simp at h
    | ok o =>
      cases o with
      | none =>
        unfold newest_image_handler at h
        rw [hx] at h
        simp at h
      | some img =>
        unfold newest_image_handler at h
        rw [hx] at h
        simp [diff_paths_of_mem (newest_image_some_mem hx)] at h

/-- Witness for C10: `diff_paths` succeeds on the concrete hit, stripping the
root. -/
theorem hits_under_root_witness :
    diff_paths ["r", "d", "a.jpg"] ["r"] = some ["d", "a.jpg"] :=
  hits_under_root.2.1 ["r"] [Seg.lit "d"] fsC10 ["r", "d", "a.jpg"] (by decide)

end RandoPhoto
